import Mathlib

/-!
# Verification of the Atlas crawler/scraper core

Shallow embedding of the crawling and extraction logic of the repository:

* `src/pdf_crawler.py` — `crawl_for_pdfs`: breadth-first, depth-bounded,
  visited-set-deduplicated traversal collecting PDF links;
* `src/web_scraper.py` — `is_valid_listing_page`, `extract_report_links`,
  `_find_label_value`, `fetch_listing_pages`, and the entry-concatenation
  step of `main`.

Python strings are modelled as Lean `String`s operated on through their
character lists (a Python `str` is a sequence of code points).  The
BeautifulSoup document tree is modelled by the mutual inductive
`Node`/`NodeList`; BeautifulSoup's element order (`next_element` chain) is
the preorder traversal.  External collaborators (urllib's `urljoin`/
`urlparse`, the network, the Playwright renderer) are parameters: a
`UrlLib` record of string functions and fetch/render oracles returning
`Except`, an exception being modelled by the `.error` case.  Loops are
given explicit fuel; `none` means the fuel ran out, so termination is the
statement that some fuel returns `some`.
-/

namespace Atlas

/-! ## Python string primitives (over code-point lists) -/

/-- Python `s.strip()` restricted to ASCII whitespace:
drop whitespace from both ends. -/
def pyStrip (s : String) : String :=
  ⟨((s.data.dropWhile Char.isWhitespace).reverse.dropWhile Char.isWhitespace).reverse⟩

/-- Python `s.lower()` (ASCII letters; the labels and markers used by the
code are ASCII). -/
def pyLower (s : String) : String :=
  ⟨s.data.map Char.toLower⟩

/-- Python `s.startswith(p)`. -/
def pyStartsWith (s p : String) : Bool :=
  p.data.isPrefixOf s.data

/-- Auxiliary for `pyContains`: does `p` occur as a contiguous sublist? -/
def listContains (p : List Char) : List Char → Bool
  | [] => p.isEmpty
  | c :: rest => p.isPrefixOf (c :: rest) || listContains p rest

/-- Python `p in s` (contiguous substring containment). -/
def pyContains (s p : String) : Bool :=
  listContains p.data s.data

/-- Python `s[n:]` (slicing by code points). -/
def pyDrop (s : String) (n : Nat) : String :=
  ⟨s.data.drop n⟩

/-- Python `s.split(sep)` for a one-character separator:
`"/a/b".split("/") = ["", "a", "b"]`. -/
def pySplit (sep : Char) (s : String) : List String :=
  (s.data.splitOn sep).map (⟨·⟩)

/-- Python `len(s)` (number of code points). -/
def pyLen (s : String) : Nat := s.data.length

/-- Splitting an attribute value on whitespace into its non-empty words
(BeautifulSoup's treatment of the multi-valued `class` attribute). -/
def pyWords (s : String) : List String :=
  ((s.data.splitOnP Char.isWhitespace).map (⟨·⟩ : List Char → String)).filter (· ≠ "")

/-! ## The document model (BeautifulSoup trees) -/

mutual
/-- A parsed HTML node: an element with a name, attributes and children, or
a text node (`NavigableString`). -/
inductive Node where
  | tag (name : String) (attrs : List (String × String)) (children : NodeList)
  | text (s : String)

/-- Children lists, as a mutual inductive so that traversals are structural. -/
inductive NodeList where
  | nil : NodeList
  | cons : Node → NodeList → NodeList
end

deriving instance DecidableEq for Node

/-- Build a `NodeList` from a Lean list (concrete-page notation helper). -/
def nl : List Node → NodeList
  | [] => .nil
  | n :: ns => .cons n (nl ns)

mutual
/-- All nodes of the subtree in document order (BeautifulSoup's
`next_element` order is exactly preorder). -/
def Node.preorder : Node → List Node
  | .text s => [.text s]
  | .tag n a cs => .tag n a cs :: NodeList.preorder cs

def NodeList.preorder : NodeList → List Node
  | .nil => []
  | .cons c cs => c.preorder ++ cs.preorder
end

mutual
/-- BeautifulSoup `get_text()`: concatenation of all descendant strings. -/
def Node.getText : Node → String
  | .text s => s
  | .tag _ _ cs => NodeList.getText cs

def NodeList.getText : NodeList → String
  | .nil => ""
  | .cons c cs => c.getText ++ cs.getText
end

/-- The string of a text node, if any. -/
def Node.textOf : Node → Option String
  | .text s => some s
  | .tag _ _ _ => none

/-- The element name, if the node is an element. -/
def Node.nameOf : Node → Option String
  | .tag n _ _ => some n
  | .text _ => none

/-- Attribute lookup (`tag.get(key)`). -/
def Node.getAttr : Node → String → Option String
  | .tag _ attrs _, k => (attrs.find? (fun p => p.1 == k)).map (·.2)
  | .text _, _ => none

/-- BeautifulSoup `soup.stripped_strings`: every descendant string, stripped,
empty results dropped, in document order. -/
def strippedStrings (n : Node) : List String :=
  ((n.preorder.filterMap Node.textOf).map pyStrip).filter (· ≠ "")

/-- `get_text(strip=True)`: the stripped strings joined without separator. -/
def Node.getTextStripped (n : Node) : String :=
  String.join (strippedStrings n)

/-! ## Structural Field Extractor (`web_scraper._find_label_value`) -/

/-- The forward walk of `_find_label_value`: starting after a matched label,
skip every token that strips to a bare `":"` and return the next token,
stripped (`None` if the list runs out). -/
def skipColonsThen : List String → Option String
  | [] => none
  | t :: rest => if pyStrip t = ":" then skipColonsThen rest else some (pyStrip t)

/-- The scan of `_find_label_value` over the stripped-string token list.
Case A: a token whose stripped, lowered form equals the lowered label;
Case B: a token whose stripped, lowered form starts with `label + ":"` —
if text remains after that prefix (and is not a lone `":"`) return it,
else fall through to the colon-skipping walk.  First match wins. -/
def findLabelValueTokens (label_base : String) : List String → Option String
  | [] => none
  | s :: rest =>
    let sl := pyStrip s
    let slower := pyLower sl
    let lb := pyLower label_base
    if slower = lb then
      skipColonsThen rest
    else if pyStartsWith slower (lb ++ ":") then
      let after := pyStrip (pyDrop sl (pyLen label_base + 1))
      if after ≠ "" ∧ after ≠ ":" then some after
      else skipColonsThen rest
    else
      findLabelValueTokens label_base rest

/-- `_find_label_value(soup, label_base)`: run the token scan on the
document's stripped strings. -/
def find_label_value (soup : Node) (label_base : String) : Option String :=
  findLabelValueTokens label_base (strippedStrings soup)

/-! ## URL Filter (`pdf_crawler.crawl_for_pdfs` junk-page regex)

The traversal drops links whose parsed path matches
`re.match(r'^/\d+(\.[\da-f]+)?\.html$', parsed.path)`: a slash, one or
more digits, optionally a dot and one or more lowercase-hex characters,
then the literal `.html`, consuming the whole path. -/

/-- `[\da-f]`: a digit or a lowercase hex letter. -/
def isHexLower (c : Char) : Bool :=
  c.isDigit || ('a' ≤ c && c ≤ 'f')

/-- After the digit run: either the literal `.html`, or a dot, a non-empty
lowercase-hex run, and the literal `.html`. -/
def junkTail : List Char → Bool
  | [] => false
  | c :: rest =>
    if c :: rest = ".html".data then true
    else if c = '.' then
      decide (rest.takeWhile isHexLower ≠ []) &&
        decide (rest.dropWhile isHexLower = ".html".data)
    else false

/-- The junk-page predicate over the path's character list. -/
def isJunkPathChars (l : List Char) : Bool :=
  match l with
  | c :: rest =>
    if c = '/' then
      decide (rest.takeWhile Char.isDigit ≠ []) && junkTail (rest.dropWhile Char.isDigit)
    else false
  | [] => false

/-- The junk-page predicate: does `re.match(r'^/\d+(\.[\da-f]+)?\.html$', p)`
succeed?  (`\d+` is greedy and the next pattern character is a literal dot,
so taking the maximal digit run is exhaustive.) -/
def isJunkPath (p : String) : Bool :=
  isJunkPathChars p.data

/-! ## Traversal Engine (`pdf_crawler.crawl_for_pdfs`) -/

/-- The `urllib.parse` collaborator: `urljoin` and the `netloc`/`path`
projections of `urlparse`, taken as parameters of the engine. -/
structure UrlLib where
  urljoin : String → String → String
  netloc : String → String
  path : String → String

/-- A successful `requests.get`: the final URL after redirects, the
`Content-Type` header, and the parsed document. -/
structure Fetched where
  finalUrl : String
  contentType : String
  html : Node
deriving DecidableEq

/-- `soup.find_all("a", href=True)`: every anchor element carrying an
`href` attribute, paired with its value, in document order. -/
def findAllAnchorHrefs (doc : Node) : List (String × Node) :=
  doc.preorder.filterMap fun n =>
    match n with
    | .tag nm _ _ => if nm = "a" then (n.getAttr "href").map (·, n) else none
    | .text _ => none

/-- The body of the inner `for link in soup.find_all("a", href=True)` loop:
resolve the href, drop off-domain links, drop junk paths, collect links
containing `.pdf` (case-insensitively, anywhere), and otherwise enqueue at
`depth+1` when below `max_depth` and not yet visited.  The state is the
pair (pdf links collected so far, queue entries appended by this page). -/
def processLink (U : UrlLib) (baseUrl finalUrl : String) (visited : List String)
    (depth maxDepth : Nat) (st : List (String × Node) × List (String × Nat))
    (hl : String × Node) : List (String × Node) × List (String × Nat) :=
  let full := U.urljoin finalUrl hl.1
  if U.netloc full ≠ U.netloc baseUrl then st
  else if isJunkPath (U.path full) then st
  else if pyContains (pyLower full) ".pdf" then (st.1 ++ [(full, hl.2)], st.2)
  else if depth < maxDepth ∧ full ∉ visited then (st.1, st.2 ++ [(full, depth + 1)])
  else st

/-- What a finished crawl returns, instrumented: the visited set, the
collected PDF links, the list of URLs passed to the fetcher (in order),
and the list of URLs appended to the frontier by the loop. -/
structure CrawlResult where
  visited : List String
  pdfLinks : List (String × Node)
  fetchLog : List String
  enqLog : List String
deriving DecidableEq

/-- The `while to_visit:` loop of `crawl_for_pdfs`, with explicit fuel
(`none` = fuel exhausted).  Dequeue FIFO; skip if visited; mark visited;
fetch (an exception — network error, timeout, `raise_for_status` — is the
`.error` case and is caught: log and continue); skip non-HTML content;
otherwise process the page's anchors and append the new entries to the
frontier. -/
def crawlAux (U : UrlLib) (fetch : String → Except String Fetched)
    (baseUrl : String) (maxDepth : Nat) :
    Nat → List String → List (String × Nat) → List (String × Node) →
    List String → List String → Option CrawlResult
  | 0, _, _, _, _, _ => none
  | fuel + 1, visited, queue, pdfs, log, enq =>
    match queue with
    | [] => some ⟨visited, pdfs, log, enq⟩
    | (u, d) :: rest =>
      if u ∈ visited then
        crawlAux U fetch baseUrl maxDepth fuel visited rest pdfs log enq
      else
        let visited' := u :: visited
        match fetch u with
        | .error _ =>
          crawlAux U fetch baseUrl maxDepth fuel visited' rest pdfs (log ++ [u]) enq
        | .ok r =>
          if pyContains r.contentType "text/html" then
            let st := (findAllAnchorHrefs r.html).foldl
              (processLink U baseUrl r.finalUrl visited' d maxDepth) (pdfs, [])
            crawlAux U fetch baseUrl maxDepth fuel visited' (rest ++ st.2) st.1
              (log ++ [u]) (enq ++ st.2.map Prod.fst)
          else
            crawlAux U fetch baseUrl maxDepth fuel visited' rest pdfs (log ++ [u]) enq

/-- `crawl_for_pdfs(base_url, max_depth)`: run the loop from the seeded
state `visited = {}`, `to_visit = [(base_url, 0)]`, `pdf_links = []`. -/
def crawl_for_pdfs (U : UrlLib) (fetch : String → Except String Fetched)
    (baseUrl : String) (maxDepth : Nat) (fuel : Nat) : Option CrawlResult :=
  crawlAux U fetch baseUrl maxDepth fuel [] [(baseUrl, 0)] [] [] []

/-- The absolute URLs of the anchors of the seed page (resolved against the
fetch's final URL), i.e. the direct links from the seed; empty when the
seed fetch fails. -/
def directLinks (U : UrlLib) (fetch : String → Except String Fetched)
    (baseUrl : String) : List String :=
  match fetch baseUrl with
  | .ok r => (findAllAnchorHrefs r.html).map fun hl => U.urljoin r.finalUrl hl.1
  | .error _ => []

/-! ## Listing pages (`web_scraper`) -/

/-- `is_valid_listing_page`'s search predicate: an `h1`/`h2`/`h3` element
whose `get_text()` contains `"Publikationer"`.  (`soup.find` with a
function filter only ever matches elements, never strings, and `get_text`
sees text nodes only — attributes are invisible to it.) -/
def listingHeaderPred (n : Node) : Bool :=
  match n with
  | .tag nm attrs cs =>
    (nm == "h1" || nm == "h2" || nm == "h3")
      && pyContains (Node.getText (.tag nm attrs cs)) "Publikationer"
  | .text _ => false

/-- `is_valid_listing_page(html)`: `soup.find(...) is not None`. -/
def is_valid_listing_page (soup : Node) : Bool :=
  (soup.preorder.find? listingHeaderPred).isSome

/-- A report entry extracted from a listing page: `{"url": ..., "date": ...}`. -/
structure Report where
  url : String
  date : String
deriving DecidableEq

/-- `a` elements whose `href` matches `re.compile(r"^/publikationer/")`
(the filter of `find_previous`). -/
def isPubAnchor (n : Node) : Bool :=
  match n with
  | .tag nm attrs _ =>
    nm == "a" &&
      (match (attrs.find? (fun p => p.1 == "href")).map (·.2) with
       | some h => pyStartsWith h "/publikationer/"
       | none => false)
  | .text _ => false

/-- `time` elements carrying the `lp-filterable-list-item-date` class
(the `soup.select` of `extract_report_links`). -/
def isTimeDateTag (n : Node) : Bool :=
  match n with
  | .tag nm attrs _ =>
    nm == "time" &&
      (((attrs.find? (fun p => p.1 == "class")).map (fun p => pyWords p.2)).getD []).contains
        "lp-filterable-list-item-date"
  | .text _ => false

/-- The category allow-list of `extract_report_links`. -/
def allowedCategories : List String := ["rapport", "pm", "statistik", "wp"]

/-- One iteration of the `for time_tag in time_tags:` loop of
`extract_report_links`, acting on the accumulated report list.  `pre` is
the whole document in element order and `p` the position and node of the
current `time` tag: read its date text, walk backwards to the closest
preceding `/publikationer/` anchor (`find_previous`), classify the href's
second path segment against the allow-list, build the absolute URL, and
skip the entry if its URL was already appended within this call. -/
def extractStep (pre : List Node) (reports : List Report) (p : Nat × Node) : List Report :=
  let date_str := p.2.getTextStripped
  match (pre.take p.1).reverse.find? isPubAnchor with
  | none => reports
  | some link =>
    match link.getAttr "href" with
    | none => reports
    | some href =>
      if href = "" then reports
      else
        let parts := pySplit '/' href
        if 2 < parts.length then
          let category := pyLower (parts.getD 2 "")
          if category ∈ allowedCategories then
            let full_url :=
              if pyStartsWith href "http" then href
              else "https://www.tillvaxtanalys.se" ++ href
            if reports.any fun r => r.url == full_url then reports
            else reports ++ [⟨full_url, date_str⟩]
          else reports
        else reports

/-- `extract_report_links(listing_html)`: fold `extractStep` over the
date-marker `time` elements in document order, starting from `[]`. -/
def extract_report_links (listing : Node) : List Report :=
  let pre := listing.preorder
  (pre.enum.filter fun p => isTimeDateTag p.2).foldl (extractStep pre) []

/-- A rendered listing page: the raw HTML text returned by `page.content()`
(whose length the paginator thresholds) and its parse. -/
structure Rendered where
  raw : String
  dom : Node
deriving DecidableEq

/-- The paginated URL: page 1 is the bare listing URL, later pages append
the ajax page-index query parameter. -/
def pagedUrl (listingUrl : String) (n : Nat) : String :=
  if n = 1 then listingUrl
  else listingUrl ++ "&svAjaxReqParam=ajax&page12_706c70df1932999ea346c0a=" ++ toString n

/-- The `while True:` loop of `fetch_listing_pages`, with explicit fuel.
The renderer collaborator (`get_html`) returning `.error` models a raised
exception: the surrounding `try` has only a `finally`, no `except`, so the
exception propagates out of the loop — hence the `.error` result.  A valid,
long-enough page with at least one extracted entry is appended and the
loop continues on the next page index. -/
def fetchListingPagesAux (render : String → Except String Rendered) (listingUrl : String) :
    Nat → Nat → List Rendered → Option (Except String (List Rendered))
  | 0, _, _ => none
  | fuel + 1, page, acc =>
    match render (pagedUrl listingUrl page) with
    | .error e => some (.error e)
    | .ok r =>
      if ¬ is_valid_listing_page r.dom then some (.ok acc)
      else if r.raw = "" ∨ pyLen r.raw < 1000 then some (.ok acc)
      else
        let acc' := acc ++ [r]
        if (extract_report_links r.dom).length < 1 then some (.ok acc')
        else fetchListingPagesAux render listingUrl fuel (page + 1) acc'

/-- `fetch_listing_pages(listing_url)` from page 1 with an empty
accumulator. -/
def fetch_listing_pages (render : String → Except String Rendered)
    (listingUrl : String) (fuel : Nat) : Option (Except String (List Rendered)) :=
  fetchListingPagesAux render listingUrl fuel 1 []

/-- The entry-collection step of `web_scraper.main`:
`for html in listing_htmls: report_entries.extend(extract_report_links(html))`. -/
def sessionEntries (listingHtmls : List Rendered) : List Report :=
  (listingHtmls.map fun r => extract_report_links r.dom).flatten

/-! ## Concrete fixtures

Small concrete instances used by witnesses and counterexamples. -/

deriving instance DecidableEq for Except

/-- A trivial `urllib` model: joining returns the href unchanged, every URL
has the same (empty) authority, and the path is the whole URL. -/
def tinyU : UrlLib := ⟨fun _ h => h, fun _ => "", fun u => u⟩

/-- An anchor element with the given href. -/
def anchor (href : String) : Node := .tag "a" [("href", href)] (nl [])

/-- A two-page site: `b` links to a PDF and to `c`; `c` links back to `b`. -/
def tinyFetch : String → Except String Fetched := fun u =>
  if u = "b" then .ok ⟨"b", "text/html", .tag "html" [] (nl [anchor "p.pdf", anchor "c"])⟩
  else if u = "c" then .ok ⟨"c", "text/html", .tag "html" [] (nl [anchor "b"])⟩
  else .error "404"

/-- A fetcher that always fails. -/
def failFetch : String → Except String Fetched := fun _ => .error "boom"

/-- A valid listing page: marker heading, one report anchor, one date tag. -/
def samplePage : Node :=
  .tag "html" [] (nl [
    .tag "h1" [] (nl [.text "Publikationer"]),
    .tag "a" [("href", "/publikationer/rapport/x")] (nl [.text "X"]),
    .tag "time" [("class", "lp-filterable-list-item-date")] (nl [.text "26 februari 2025"])])

/-- A page whose only occurrence of the marker phrase sits in an `h4`. -/
def h4Page : Node :=
  .tag "html" [] (nl [.tag "h4" [] (nl [.text "Publikationer"])])

/-- `samplePage` with a raw body long enough to pass the length threshold. -/
def sampleRendered : Rendered := ⟨⟨List.replicate 1000 'a'⟩, samplePage⟩

/-- A renderer whose first page is `sampleRendered` and whose later pages
raise (the network error case of `get_html`). -/
def failingRender (listingUrl : String) : String → Except String Rendered :=
  fun u => if u = listingUrl then .ok sampleRendered else .error "timeout"

/-- A renderer whose first page is `sampleRendered` and whose later pages
lack the marker heading. -/
def twoPageRender (listingUrl : String) : String → Except String Rendered :=
  fun u => if u = listingUrl then .ok sampleRendered else .ok ⟨"", h4Page⟩

/-- A `urllib` model under which every URL parses to a junk path. -/
def junkU : UrlLib := ⟨fun _ h => h, fun _ => "", fun _ => "/123.abcdef.html"⟩

/-! ## Termination measure for the traversal

`crawl_for_pdfs` terminates on a finite graph: if a finite list `univ` of
URLs contains the seed and is closed under the links of fetched pages,
the loop finishes within `crawlMeasure + 1` steps. -/

/-- How many anchors the page fetched at `u` carries (0 on failure). -/
def linkCount (fetch : String → Except String Fetched) (u : String) : Nat :=
  match fetch u with
  | .ok r => (findAllAnchorHrefs r.html).length
  | .error _ => 0

/-- An upper bound on `linkCount` over the URL universe. -/
def pushBound (fetch : String → Except String Fetched) (univ : List String) : Nat :=
  univ.foldr (fun u acc => max (linkCount fetch u) acc) 0

/-- The loop measure: unvisited universe entries weighted by the maximal
number of frontier entries one page can add, plus the frontier length. -/
def crawlMeasure (fetch : String → Except String Fetched) (univ visited : List String)
    (queue : List (String × Nat)) : Nat :=
  (univ.filter fun u => decide (u ∉ visited)).length * (pushBound fetch univ + 2)
    + queue.length

/-! ## Sanity checks on the embedding -/

example : pyStrip "  a b  " = "a b" := by decide
example : pySplit '/' "/publikationer/rapport/x" = ["", "publikationer", "rapport", "x"] := by decide
example :
    strippedStrings (Node.tag "div" [] (nl [.text " x ", .text "  ", .text "y"]))
      = ["x", "y"] := by decide
example : isJunkPath "/123.html" = true := by decide
example : isJunkPath "/123.abch.html" = false := by decide
example : isJunkPath "/.html" = false := by decide
example :
    crawl_for_pdfs tinyU tinyFetch "b" 3 10
      = some ⟨["c", "b"], [("p.pdf", anchor "p.pdf")], ["b", "c"], ["c"]⟩ := by decide
example : is_valid_listing_page samplePage = true := by decide
example : is_valid_listing_page h4Page = false := by decide
example :
    extract_report_links samplePage
      = [⟨"https://www.tillvaxtanalys.se/publikationer/rapport/x", "26 februari 2025"⟩] := by
  decide
set_option maxRecDepth 40000 in
example : fetch_listing_pages (twoPageRender "L") "L" 5 = some (.ok [sampleRendered]) := by
  decide

/-! ## C2 — the label-value scanner -/

/-- On a token list that is already stripped (as `stripped_strings` tokens
are), the colon-skipping walk returns the first token that is not a bare
colon. -/
theorem skipColonsThen_eq_find? (suf : List String) (h : ∀ s ∈ suf, pyStrip s = s) :
    skipColonsThen suf = suf.find? (fun x => x != ":") := by
  induction suf with
  | nil => rfl
  | cons t rest ih =>
    have ht := h t (by simp)
    rw [skipColonsThen, List.find?, ht]
    by_cases hc : t = ":"
    · subst hc
      simpa using ih fun s hs => h s (List.mem_cons_of_mem _ hs)
    · have hb : (t != ":") = true := by simp [bne_iff_ne, hc]
      rw [if_neg hc, hb]

/-- **C2**: `_find_label_value` on the three specified token lists returns
`"Rapport 2024:17"`, `"Rapport 2024:17"` and absent; and in general, on a
stripped-string token sequence whose first label match is a token exactly
equal to the label (case-insensitively), it skips the immediately
following bare-colon tokens and returns the next non-colon (hence
non-blank) token, absent if none remains. -/
theorem findLabelValue_spec :
    findLabelValueTokens "Serienummer" ["Serienummer", ":", "Rapport 2024:17"]
      = some "Rapport 2024:17"
    ∧ findLabelValueTokens "Serienummer" ["Serienummer: Rapport 2024:17"]
      = some "Rapport 2024:17"
    ∧ findLabelValueTokens "Serienummer" ["Serienummer"] = none
    ∧ ∀ (label t : String) (pre suf : List String),
        (∀ s ∈ pre ++ t :: suf, pyStrip s = s ∧ s ≠ "") →
        (∀ s ∈ pre, pyLower s ≠ pyLower label ∧
          pyStartsWith (pyLower s) (pyLower label ++ ":") = false) →
        pyLower t = pyLower label →
        findLabelValueTokens label (pre ++ t :: suf) = suf.find? (fun x => x != ":") := by
  refine ⟨by decide, by decide, by decide, ?_⟩
  intro label t pre suf hstrip hpre ht
  induction pre with
  | nil =>
    have hts := (hstrip t (by simp)).1
    rw [List.nil_append, findLabelValueTokens]
    simp only [hts, ht, if_pos rfl]
    exact skipColonsThen_eq_find? suf fun s hs => (hstrip s (by simp [hs])).1
  | cons s pre ih =>
    have hs := hpre s (by simp)
    have hss := (hstrip s (by simp)).1
    rw [List.cons_append, findLabelValueTokens]
    simp only [hss]
    rw [if_neg hs.1, if_neg (by simp [hs.2])]
    exact ih (fun x hx => hstrip x (by simp at hx ⊢; tauto))
      (fun x hx => hpre x (List.mem_cons_of_mem _ hx))

/-- Witness for C2's general clause at a concrete token list. -/
theorem findLabelValue_spec_witness :
    findLabelValueTokens "L" ["x", "L", ":", "v"] = some "v" := by
  have h := findLabelValue_spec.2.2.2 "L" "L" ["x"] [":", "v"]
    (by decide) (by decide) (by decide)
  exact h.trans (by decide)

/-! ## C6 — the junk-page regex -/

/-- A run of elements satisfying `p` followed by an element refuting `p`
is exactly what `takeWhile`/`dropWhile` split off. -/
theorem takeWhile_all_append {α : Type} (p : α → Bool) (l1 l2 : List α) (c : α)
    (h1 : ∀ x ∈ l1, p x = true) (hc : p c = false) :
    ((l1 ++ c :: l2).takeWhile p = l1) ∧ ((l1 ++ c :: l2).dropWhile p = c :: l2) := by
  induction l1 with
  | nil => simp [List.takeWhile_cons, List.dropWhile_cons, hc]
  | cons a l1 ih =>
    have ha := h1 a (by simp)
    have ih' := ih fun x hx => h1 x (by simp [hx])
    simp [List.takeWhile_cons, List.dropWhile_cons, ha, ih'.1, ih'.2]

/-- Every element of `takeWhile p l` satisfies `p`. -/
theorem mem_takeWhile_pred {α : Type} {p : α → Bool} :
    ∀ {l : List α} {x : α}, x ∈ l.takeWhile p → p x = true := by
  intro l
  induction l with
  | nil => intro x hx; simp [List.takeWhile] at hx
  | cons a l ih =>
    intro x hx
    rw [List.takeWhile_cons] at hx
    by_cases ha : p a
    · rw [if_pos ha] at hx
      rcases List.mem_cons.mp hx with rfl | hx
      · exact ha
      · exact ih hx
    · rw [if_neg (by simpa using ha)] at hx
      simp at hx

/-- A dot followed by a non-empty lowercase-hex run and `.html` is not the
bare string `.html` (its second character would have to be `h`). -/
theorem hexTail_ne_html (h : List Char) (hne : h ≠ [])
    (hhex : ∀ c ∈ h, isHexLower c = true) :
    ('.' :: (h ++ ".html".data)) ≠ ".html".data := by
  intro heq
  rw [show ".html".data = ['.', 'h', 't', 'm', 'l'] from by decide] at heq
  cases h with
  | nil => exact hne rfl
  | cons c h' =>
    simp only [List.cons_append, List.cons.injEq, true_and] at heq
    obtain ⟨hc, -⟩ := heq
    have := hhex c (by simp)
    rw [hc] at this
    exact absurd this (by decide)

/-- The tail matcher accepts a dot, a non-empty lowercase-hex run and
`.html`. -/
theorem junkTail_hex (h : List Char) (hne : h ≠ [])
    (hhex : ∀ c ∈ h, isHexLower c = true) :
    junkTail ('.' :: (h ++ ".html".data)) = true := by
  rw [junkTail, if_neg (hexTail_ne_html h hne hhex), if_pos rfl,
    Bool.and_eq_true, decide_eq_true_eq, decide_eq_true_eq]
  rw [show ".html".data = '.' :: "html".data from by decide]
  have hta := takeWhile_all_append isHexLower h "html".data '.' hhex (by decide)
  rw [hta.1, hta.2]
  exact ⟨hne, rfl⟩

/-- A slash, a non-empty digit run, a dot and any `junkTail`-accepted tail
is accepted by the path matcher. -/
theorem isJunk_of (d t : List Char) (hdne : d ≠ [])
    (hdig : ∀ c ∈ d, c.isDigit = true) (ht : junkTail ('.' :: t) = true) :
    isJunkPathChars ('/' :: (d ++ '.' :: t)) = true := by
  rw [isJunkPathChars, if_pos rfl]
  have hta := takeWhile_all_append Char.isDigit d t '.' hdig (by decide)
  rw [hta.1, hta.2, Bool.and_eq_true, decide_eq_true_eq]
  exact ⟨hdne, ht⟩

/-- **C6**: the junk-page predicate holds on `/123.abcdef.html`, fails on
`/about.html` and on the multi-segment `/12/report.html`, and in general
accepts exactly the single-segment paths of digits, optionally followed by
a dot and a lowercase-hex suffix, ending in `.html`. -/
theorem isJunkPath_spec :
    isJunkPath "/123.abcdef.html" = true
    ∧ isJunkPath "/about.html" = false
    ∧ isJunkPath "/12/report.html" = false
    ∧ ∀ p : String, isJunkPath p = true ↔
        ∃ d : List Char, d ≠ [] ∧ (∀ c ∈ d, c.isDigit = true) ∧
          (p.data = '/' :: (d ++ ".html".data) ∨
            ∃ h : List Char, h ≠ [] ∧ (∀ c ∈ h, isHexLower c = true) ∧
              p.data = '/' :: (d ++ '.' :: (h ++ ".html".data))) := by
  refine ⟨by decide, by decide, by decide, ?_⟩
  intro p
  constructor
  · intro hj
    rw [isJunkPath] at hj
    rcases hd : p.data with _ | ⟨c, rest⟩ <;> rw [hd] at hj
    · simp [isJunkPathChars] at hj
    · rw [isJunkPathChars] at hj
      by_cases hc : c = '/'
      · subst hc
        rw [if_pos rfl, Bool.and_eq_true, decide_eq_true_eq] at hj
        obtain ⟨hdne, hTail⟩ := hj
        have hdig : ∀ x ∈ rest.takeWhile Char.isDigit, x.isDigit = true :=
          fun x hx => mem_takeWhile_pred hx
        have hsplit := List.takeWhile_append_dropWhile (p := Char.isDigit) (l := rest)
        generalize hr : rest.dropWhile Char.isDigit = r at hTail hsplit
        rcases r with _ | ⟨c2, rest2⟩
        · rw [junkTail] at hTail
          exact absurd hTail (by simp)
        · rw [junkTail] at hTail
          by_cases hml : c2 :: rest2 = ".html".data
          · refine ⟨rest.takeWhile Char.isDigit, hdne, hdig, Or.inl ?_⟩
            rw [← hml, hsplit]
          · rw [if_neg hml] at hTail
            by_cases hc2 : c2 = '.'
            · subst hc2
              rw [if_pos rfl, Bool.and_eq_true, decide_eq_true_eq,
                decide_eq_true_eq] at hTail
              obtain ⟨hhne, hhdrop⟩ := hTail
              refine ⟨rest.takeWhile Char.isDigit, hdne, hdig,
                Or.inr ⟨rest2.takeWhile isHexLower, hhne,
                  fun x hx => mem_takeWhile_pred hx, ?_⟩⟩
              rw [← hhdrop, List.takeWhile_append_dropWhile, hsplit]
            · rw [if_neg hc2] at hTail
              exact absurd hTail (by simp)
      · rw [if_neg hc] at hj
        exact absurd hj (by simp)
  · rintro ⟨d, hdne, hdig, hshape⟩
    rw [isJunkPath]
    rcases hshape with hp | ⟨h, hhne, hhex, hp⟩
    · rw [hp, show ".html".data = '.' :: "html".data from by decide]
      exact isJunk_of d "html".data hdne hdig (by decide)
    · rw [hp]
      exact isJunk_of d (h ++ ".html".data) hdne hdig (junkTail_hex h hhne hhex)

/-- Witness: the general clause of C6 applied at a one-digit path. -/
theorem isJunkPath_spec_witness : isJunkPath ⟨'/' :: (['7'] ++ ".html".data)⟩ = true :=
  (isJunkPath_spec.2.2.2 ⟨'/' :: (['7'] ++ ".html".data)⟩).mpr
    ⟨['7'], by decide, by decide, Or.inl rfl⟩

/-! ## C7 — junk filtering precedes the document branch -/

/-- **C7**: in the per-link processing of the traversal loop, the junk-page
filter runs before the document test: a same-domain link whose parsed path
is junk changes neither the collected documents nor the frontier, even if
its URL contains `.pdf`; a same-domain, non-junk link whose lowered URL
contains `.pdf` anywhere is recorded as a document and never enqueued. -/
theorem junk_before_document :
    ∀ (U : UrlLib) (baseUrl finalUrl : String) (visited : List String)
      (depth maxDepth : Nat) (st : List (String × Node) × List (String × Nat))
      (href : String) (nd : Node),
      (U.netloc (U.urljoin finalUrl href) = U.netloc baseUrl →
        isJunkPath (U.path (U.urljoin finalUrl href)) = true →
        processLink U baseUrl finalUrl visited depth maxDepth st (href, nd) = st)
      ∧ (U.netloc (U.urljoin finalUrl href) = U.netloc baseUrl →
        isJunkPath (U.path (U.urljoin finalUrl href)) = false →
        pyContains (pyLower (U.urljoin finalUrl href)) ".pdf" = true →
        processLink U baseUrl finalUrl visited depth maxDepth st (href, nd)
          = (st.1 ++ [(U.urljoin finalUrl href, nd)], st.2)) := by
  intro U baseUrl finalUrl visited depth maxDepth st href nd
  constructor
  · intro hdom hjunk
    simp only [processLink]
    rw [if_neg (by simp [hdom]), if_pos hjunk]
  · intro hdom hjunk hpdf
    simp only [processLink]
    rw [if_neg (by simp [hdom]), if_neg (by simp [hjunk]), if_pos hpdf]

/-- Witness for C7: a junk link is dropped even though its URL says `.pdf`. -/
theorem junk_before_document_witness :
    processLink junkU "b" "b" [] 0 3 ([], []) ("x.pdf", anchor "x.pdf") = ([], []) :=
  (junk_before_document junkU "b" "b" [] 0 3 ([], []) "x.pdf" (anchor "x.pdf")).1
    rfl (by decide)

/-! ## C8 — per-call URL dedup in `extract_report_links` -/

/-- One extraction step preserves pairwise-distinct URLs: an entry is only
appended after the `any`-scan says its URL is absent. -/
theorem extractStep_nodup (pre : List Node) (reports : List Report) (p : Nat × Node)
    (h : (reports.map Report.url).Nodup) :
    ((extractStep pre reports p).map Report.url).Nodup := by
  simp only [extractStep]
  repeat' split
  all_goals try exact h
  all_goals
    rename_i hany
    rw [List.map_append]
    refine List.nodup_append.mpr ⟨h, by simp, ?_⟩
    intro a ha hb
    simp only [List.map_cons, List.map_nil, List.mem_singleton] at hb
    subst hb
    obtain ⟨r, hr, hurl⟩ := List.mem_map.mp ha
    exact hany (List.any_eq_true.mpr ⟨r, hr, by simp [hurl]⟩)

/-- Folding extraction steps from a dup-free accumulator stays dup-free. -/
theorem foldl_extractStep_nodup (pre : List Node) :
    ∀ (l : List (Nat × Node)) (acc : List Report),
      (acc.map Report.url).Nodup →
      ((l.foldl (extractStep pre) acc).map Report.url).Nodup := by
  intro l
  induction l with
  | nil => intro acc h; exact h
  | cons x l ih => intro acc h; exact ih _ (extractStep_nodup pre acc x h)

/-- **C8**: within one call, `extract_report_links` never appends two
entries with the same absolute URL. -/
theorem extract_report_links_nodup (listing : Node) :
    ((extract_report_links listing).map Report.url).Nodup := by
  simp only [extract_report_links]
  exact foldl_extractStep_nodup _ _ _ (by simp)

/-! ## C9 — the session sequence does not dedup across pages -/

/-- Counterexample to C9: a pagination session of two listing pages that
carry the same report URL yields that URL twice in the session's entry
sequence — `main` concatenates per-page extractions without cross-page
suppression. -/
theorem sessionEntries_dup_counterexample :
    ¬ ((sessionEntries [sampleRendered, sampleRendered]).map Report.url).Nodup := by
  decide

/-- **C9 (amended)**: duplicate URLs are suppressed only within a single
page's extraction call; the session sequence is the concatenation of the
per-page entries and can repeat a URL that already appeared on an earlier
page. -/
theorem sessionEntries_dedup_per_page_only :
    (∀ r : Rendered, ((extract_report_links r.dom).map Report.url).Nodup)
    ∧ ∃ hs : List Rendered, ¬ ((sessionEntries hs).map Report.url).Nodup := by
  constructor
  · intro r
    simp only [extract_report_links]
    exact foldl_extractStep_nodup _ _ _ (by simp)
  · exact ⟨[sampleRendered, sampleRendered], by decide⟩

/-! ## C10 — listing validity is decided by h1/h2/h3 only -/

/-- **C10**: `is_valid_listing_page` accepts a page exactly when some
`h1`/`h2`/`h3` element's text contains `"Publikationer"`; the marker in an
`h4` does not validate, and the paginator stops immediately at any page
failing the check. -/
theorem valid_listing_iff_h123 :
    (∀ soup : Node, is_valid_listing_page soup = true ↔
      ∃ nm attrs cs, Node.tag nm attrs cs ∈ soup.preorder
        ∧ (nm = "h1" ∨ nm = "h2" ∨ nm = "h3")
        ∧ pyContains (Node.getText (.tag nm attrs cs)) "Publikationer" = true)
    ∧ is_valid_listing_page h4Page = false
    ∧ ∀ (render : String → Except String Rendered) (listingUrl : String)
        (fuel page : Nat) (acc : List Rendered) (r : Rendered),
        render (pagedUrl listingUrl page) = .ok r →
        is_valid_listing_page r.dom = false →
        fetchListingPagesAux render listingUrl (fuel + 1) page acc = some (.ok acc) := by
  refine ⟨?_, by decide, ?_⟩
  · intro soup
    rw [is_valid_listing_page, List.find?_isSome]
    constructor
    · rintro ⟨x, hx, hp⟩
      cases x with
      | text s => simp [listingHeaderPred] at hp
      | tag nm attrs cs =>
        rw [listingHeaderPred, Bool.and_eq_true] at hp
        obtain ⟨hname, htext⟩ := hp
        refine ⟨nm, attrs, cs, hx, ?_, htext⟩
        have := by simpa using hname
        tauto
    · rintro ⟨nm, attrs, cs, hmem, hname, htext⟩
      refine ⟨.tag nm attrs cs, hmem, ?_⟩
      rw [listingHeaderPred, Bool.and_eq_true]
      refine ⟨?_, htext⟩
      rcases hname with h | h | h <;> simp [h]
  · intro render listingUrl fuel page acc r hrender hvalid
    simp only [fetchListingPagesAux, hrender]
    rw [if_pos (by simp [hvalid])]

/-- Witness for C10's pagination clause: a page whose marker sits only in
an `h4` halts pagination at once. -/
theorem valid_listing_iff_h123_witness :
    fetchListingPagesAux (fun _ => .ok ⟨"", h4Page⟩) "L" 1 1 [] = some (.ok []) :=
  valid_listing_iff_h123.2.2 (fun _ => .ok ⟨"", h4Page⟩) "L" 0 1 [] ⟨"", h4Page⟩
    rfl (by decide)

/-! ## C4 — failure handling at the loop boundaries -/

set_option maxRecDepth 40000 in
/-- Counterexample to C4: with a renderer that loads page 1 but raises on
page 2, the pagination run ends in the propagated exception — the failure
is not skipped, and the already collected page is lost. -/
theorem pagination_failure_counterexample :
    fetch_listing_pages (failingRender "L") "L" 5 = some (.error "timeout") := by
  decide

/-- **C4 (amended)**: in the traversal loop of `crawl_for_pdfs`, a fetch
failure on one URL is caught and treated as skip-and-continue (the URL is
marked visited, the failure logged, and the loop proceeds on the remaining
frontier); in the pagination loop of `fetch_listing_pages`, however, a
renderer failure is not caught and the loop ends in the propagated
exception. -/
theorem per_item_failure_handling :
    (∀ (U : UrlLib) (fetch : String → Except String Fetched) (baseUrl : String)
      (maxDepth fuel : Nat) (visited : List String) (rest : List (String × Nat))
      (pdfs : List (String × Node)) (log enq : List String) (u : String) (d : Nat)
      (e : String),
      u ∉ visited → fetch u = .error e →
      crawlAux U fetch baseUrl maxDepth (fuel + 1) visited ((u, d) :: rest) pdfs log enq
        = crawlAux U fetch baseUrl maxDepth fuel (u :: visited) rest pdfs (log ++ [u]) enq)
    ∧ ∀ (render : String → Except String Rendered) (listingUrl : String)
        (fuel page : Nat) (acc : List Rendered) (e : String),
        render (pagedUrl listingUrl page) = .error e →
        fetchListingPagesAux render listingUrl (fuel + 1) page acc = some (.error e) := by
  constructor
  · intro U fetch baseUrl maxDepth fuel visited rest pdfs log enq u d e hu hf
    simp only [crawlAux]
    rw [if_neg hu]
    simp only [hf]
  · intro render listingUrl fuel page acc e hr
    simp only [fetchListingPagesAux, hr]

/-- Witness for C4's amended clauses on concrete failing oracles. -/
theorem per_item_failure_handling_witness :
    crawlAux tinyU failFetch "b" 3 1 [] [("b", 0)] [] [] []
      = crawlAux tinyU failFetch "b" 3 0 ["b"] [] [] ["b"] []
    ∧ fetchListingPagesAux (fun _ => .error "boom") "L" 1 1 [] = some (.error "boom") :=
  ⟨per_item_failure_handling.1 tinyU failFetch "b" 3 0 [] [] [] [] [] "b" 0 "boom"
      (by simp) rfl,
    per_item_failure_handling.2 (fun _ => .error "boom") "L" 0 1 [] "boom" rfl⟩

/-! ## C3 — pagination stops after the last valid page -/

/-- A valid, long-enough page with at least one entry advances the
paginator one page, appending the page to the accumulator. -/
theorem fetchListingPagesAux_step (render : String → Except String Rendered)
    (listingUrl : String) (fuel page : Nat) (acc : List Rendered) (r : Rendered)
    (hrender : render (pagedUrl listingUrl page) = .ok r)
    (hvalid : is_valid_listing_page r.dom = true)
    (hlen : 1000 ≤ pyLen r.raw)
    (hentries : extract_report_links r.dom ≠ []) :
    fetchListingPagesAux render listingUrl (fuel + 1) page acc
      = fetchListingPagesAux render listingUrl fuel (page + 1) (acc ++ [r]) := by
  simp only [fetchListingPagesAux, hrender]
  rw [if_neg (by simp [hvalid]),
    if_neg ?hlen2,
    if_neg (by have := List.length_pos.mpr hentries; omega)]
  case hlen2 =>
    rintro (h0 | hlt)
    · rw [h0] at hlen
      simp [pyLen] at hlen
    · omega

/-- The paginator's run: through `j` more valid pages starting at page `p`
and stopping at the invalid page `N`. -/
theorem fetchListingPagesAux_run (render : String → Except String Rendered)
    (listingUrl : String) (R : Nat → Rendered) (N : Nat)
    (hok : ∀ k, 1 ≤ k → k ≤ N → render (pagedUrl listingUrl k) = .ok (R k))
    (hvalid : ∀ k, 1 ≤ k → k < N → is_valid_listing_page (R k).dom = true
      ∧ 1000 ≤ pyLen (R k).raw ∧ extract_report_links (R k).dom ≠ []) :
    is_valid_listing_page (R N).dom = false →
    ∀ (j p : Nat), p + j = N → 1 ≤ p → ∀ (fuel : Nat), j + 1 ≤ fuel →
      ∀ acc, fetchListingPagesAux render listingUrl fuel p acc
        = some (.ok (acc ++ (List.range' p j).map R)) := by
  intro hstop j
  induction j with
  | zero =>
    intro p hpN hp fuel hfuel acc
    obtain ⟨f, rfl⟩ : ∃ f, fuel = f + 1 := ⟨fuel - 1, by omega⟩
    have hpn : p = N := by omega
    subst hpn
    simp only [fetchListingPagesAux, hok p hp (by omega)]
    rw [if_pos (by simp [hstop])]
    simp [List.range']
  | succ j ih =>
    intro p hpN hp fuel hfuel acc
    obtain ⟨f, rfl⟩ : ∃ f, fuel = f + 1 := ⟨fuel - 1, by omega⟩
    have hv := hvalid p hp (by omega)
    rw [fetchListingPagesAux_step render listingUrl f p acc (R p)
      (hok p hp (by omega)) hv.1 hv.2.1 hv.2.2]
    rw [ih (p + 1) (by omega) (by omega) f (by omega) (acc ++ [R p])]
    rw [List.range'_succ]
    simp

/-- **C3**: when pages `1..N-1` are valid (marker present, long enough,
each with at least one entry) and page `N` lacks the marker, the paginator
returns exactly the pages `1..N-1` in order, and the session's entries are
those extracted from pages `1..N-1` in page order — none from page `N`. -/
theorem pagination_stops_at_invalid :
    ∀ (render : String → Except String Rendered) (listingUrl : String)
      (R : Nat → Rendered) (N : Nat), 1 ≤ N →
      (∀ k, 1 ≤ k → k ≤ N → render (pagedUrl listingUrl k) = .ok (R k)) →
      (∀ k, 1 ≤ k → k < N → is_valid_listing_page (R k).dom = true
        ∧ 1000 ≤ pyLen (R k).raw ∧ extract_report_links (R k).dom ≠ []) →
      is_valid_listing_page (R N).dom = false →
      fetch_listing_pages render listingUrl N
        = some (.ok ((List.range' 1 (N - 1)).map R))
      ∧ sessionEntries ((List.range' 1 (N - 1)).map R)
        = ((List.range' 1 (N - 1)).map fun k => extract_report_links (R k).dom).flatten := by
  intro render listingUrl R N hN hok hvalid hstop
  refine ⟨?_, by simp [sessionEntries, List.map_map]; rfl⟩
  rw [fetch_listing_pages]
  have h := fetchListingPagesAux_run render listingUrl R N hok hvalid hstop
    (N - 1) 1 (by omega) (by omega) N (by omega) []
  exact h.trans (by simp)

set_option maxRecDepth 40000 in
/-- Witness for C3 at a concrete two-page session. -/
theorem pagination_stops_at_invalid_witness :
    fetch_listing_pages (twoPageRender "L") "L" 2 = some (.ok [sampleRendered]) := by
  have h := (pagination_stops_at_invalid (twoPageRender "L") "L"
    (fun k => if k = 1 then sampleRendered else ⟨"", h4Page⟩) 2 (by omega)
    (by intro k h1 h2
        have hk : k = 1 ∨ k = 2 := by omega
        rcases hk with rfl | rfl <;> decide)
    (by intro k h1 h2
        have hk : k = 1 := by omega
        subst hk
        exact ⟨by decide, by decide, by decide⟩)
    (by decide)).1
  exact h.trans (by decide)

/-! ## C5 — the depth bound -/

/-- Per-link case analysis: each link either changes nothing, appends one
document link, or (only when `depth < maxDepth`) appends one frontier
entry carrying the resolved URL at `depth + 1`. -/
theorem processLink_cases (U : UrlLib) (baseUrl finalUrl : String) (visited : List String)
    (depth maxDepth : Nat) (st : List (String × Node) × List (String × Nat))
    (hl : String × Node) :
    processLink U baseUrl finalUrl visited depth maxDepth st hl = st
    ∨ processLink U baseUrl finalUrl visited depth maxDepth st hl
        = (st.1 ++ [(U.urljoin finalUrl hl.1, hl.2)], st.2)
    ∨ (depth < maxDepth
        ∧ processLink U baseUrl finalUrl visited depth maxDepth st hl
            = (st.1, st.2 ++ [(U.urljoin finalUrl hl.1, depth + 1)])) := by
  simp only [processLink]
  repeat' split
  · exact Or.inl rfl
  · exact Or.inl rfl
  · exact Or.inr (Or.inl rfl)
  · rename_i h
    exact Or.inr (Or.inr ⟨h.1, rfl⟩)
  · exact Or.inl rfl

/-- What a page's link fold does to the frontier component: every appended
entry is a resolved link of the page at `depth + 1`; at most one entry per
link is appended; and nothing is appended at all once `depth ≥ maxDepth`. -/
theorem foldl_processLink_queue (U : UrlLib) (baseUrl finalUrl : String)
    (visited : List String) (depth maxDepth : Nat) :
    ∀ (links : List (String × Node)) (st : List (String × Node) × List (String × Nat)),
      (∀ q ∈ (links.foldl (processLink U baseUrl finalUrl visited depth maxDepth) st).2,
        q ∈ st.2 ∨ (q.2 = depth + 1 ∧ ∃ hl ∈ links, q.1 = U.urljoin finalUrl hl.1))
      ∧ (links.foldl (processLink U baseUrl finalUrl visited depth maxDepth) st).2.length
          ≤ st.2.length + links.length
      ∧ (¬ depth < maxDepth →
          (links.foldl (processLink U baseUrl finalUrl visited depth maxDepth) st).2
            = st.2) := by
  intro links
  induction links with
  | nil => exact fun st => ⟨fun q hq => Or.inl hq, by simp, fun _ => rfl⟩
  | cons hl links ih =>
    intro st
    rw [List.foldl_cons]
    have step := processLink_cases U baseUrl finalUrl visited depth maxDepth st hl
    have tail := ih (processLink U baseUrl finalUrl visited depth maxDepth st hl)
    refine ⟨?_, ?_, ?_⟩
    · intro q hq
      rcases tail.1 q hq with hin | ⟨hdep, l, hlmem, hurl⟩
      · rcases step with h | h | ⟨hd, h⟩
        · rw [h] at hin; exact Or.inl hin
        · rw [h] at hin; exact Or.inl hin
        · rw [h] at hin
          rcases List.mem_append.mp hin with hin | hin
          · exact Or.inl hin
          · simp only [List.mem_singleton] at hin
            subst hin
            exact Or.inr ⟨rfl, hl, by simp, rfl⟩
      · exact Or.inr ⟨hdep, l, List.mem_cons_of_mem _ hlmem, hurl⟩
    · have hlen := tail.2.1
      rcases step with h | h | ⟨hd, h⟩ <;> rw [h] at hlen ⊢ <;> simp at hlen ⊢ <;> omega
    · intro hnd
      rw [tail.2.2 hnd]
      rcases step with h | h | ⟨hd, h⟩
      · rw [h]
      · rw [h]
      · exact absurd hd hnd

/-- The loop invariant behind C5: with `maxDepth = 1` every frontier entry
is the seed at depth 0 or a direct seed link at depth 1, and the logs only
ever receive the seed and direct links. -/
theorem crawlAux_depth1 (U : UrlLib) (fetch : String → Except String Fetched)
    (baseUrl : String) :
    ∀ (fuel : Nat) (visited : List String) (queue : List (String × Nat))
      (pdfs : List (String × Node)) (log enq : List String) (r : CrawlResult),
      crawlAux U fetch baseUrl 1 fuel visited queue pdfs log enq = some r →
      (∀ q ∈ queue, (q.1 = baseUrl ∧ q.2 = 0)
        ∨ (q.2 = 1 ∧ q.1 ∈ directLinks U fetch baseUrl)) →
      (∀ u ∈ log, u = baseUrl ∨ u ∈ directLinks U fetch baseUrl) →
      (∀ u ∈ enq, u ∈ directLinks U fetch baseUrl) →
      (∀ u ∈ r.fetchLog, u = baseUrl ∨ u ∈ directLinks U fetch baseUrl)
      ∧ (∀ u ∈ r.enqLog, u ∈ directLinks U fetch baseUrl) := by
  intro fuel
  induction fuel with
  | zero =>
    intro _ _ _ _ _ r h
    simp [crawlAux] at h
  | succ fuel ih =>
    intro visited queue pdfs log enq r h hq hlog henq
    rcases queue with _ | ⟨⟨u, d⟩, rest⟩
    · simp only [crawlAux, Option.some.injEq] at h
      subst h
      exact ⟨hlog, henq⟩
    · simp only [crawlAux] at h
      by_cases hv : u ∈ visited
      · rw [if_pos hv] at h
        exact ih _ _ _ _ _ r h (fun q hq' => hq q (List.mem_cons_of_mem _ hq')) hlog henq
      · rw [if_neg hv] at h
        have hu := hq (u, d) (by simp)
        have hlog' : ∀ x ∈ log ++ [u], x = baseUrl ∨ x ∈ directLinks U fetch baseUrl := by
          intro x hx
          rcases List.mem_append.mp hx with hx | hx
          · exact hlog x hx
          · simp only [List.mem_singleton] at hx
            subst hx
            rcases hu with ⟨h1, -⟩ | ⟨-, h2⟩
            · exact Or.inl h1
            · exact Or.inr h2
        split at h
        · exact ih _ _ _ _ _ r h (fun q hq' => hq q (List.mem_cons_of_mem _ hq')) hlog' henq
        · rename_i pg hf
          by_cases hct : pyContains pg.contentType "text/html" = true
          · rw [if_pos hct] at h
            have hfold := foldl_processLink_queue U baseUrl pg.finalUrl (u :: visited) d 1
              (findAllAnchorHrefs pg.html) (pdfs, [])
            have hnew : ∀ q ∈ ((findAllAnchorHrefs pg.html).foldl
                (processLink U baseUrl pg.finalUrl (u :: visited) d 1) (pdfs, [])).2,
                q.2 = 1 ∧ q.1 ∈ directLinks U fetch baseUrl := by
              intro q hq'
              rcases hu with ⟨hub, hd0⟩ | ⟨hd1, -⟩
              · subst hub hd0
                rcases hfold.1 q hq' with hin | ⟨hdep, l, hlmem, hurl⟩
                · simp at hin
                · refine ⟨by simpa using hdep, ?_⟩
                  rw [directLinks, hf]
                  exact List.mem_map.mpr ⟨l, hlmem, hurl.symm⟩
              · subst hd1
                rw [hfold.2.2 (by omega)] at hq'
                simp at hq'
            refine ih _ _ _ _ _ r h ?_ hlog' ?_
            · intro q hq'
              rcases List.mem_append.mp hq' with hx | hx
              · exact hq q (List.mem_cons_of_mem _ hx)
              · exact Or.inr (hnew q hx)
            · intro x hx
              rcases List.mem_append.mp hx with hx | hx
              · exact henq x hx
              · obtain ⟨q, hq2, rfl⟩ := List.mem_map.mp hx
                exact (hnew q hq2).2
          · rw [if_neg hct] at h
            exact ih _ _ _ _ _ r h (fun q hq' => hq q (List.mem_cons_of_mem _ hq')) hlog' henq

/-- **C5**: with `maxDepth = 1`, the engine only ever fetches the seed page
and pages directly linked from the seed page, and only direct seed links
are ever enqueued into the frontier — a URL reachable only via a second
hop is never enqueued. -/
theorem depth_one_bound :
    ∀ (U : UrlLib) (fetch : String → Except String Fetched) (baseUrl : String)
      (fuel : Nat) (r : CrawlResult),
      crawl_for_pdfs U fetch baseUrl 1 fuel = some r →
      (∀ u ∈ r.fetchLog, u = baseUrl ∨ u ∈ directLinks U fetch baseUrl)
      ∧ ∀ u ∈ r.enqLog, u ∈ directLinks U fetch baseUrl := by
  intro U fetch baseUrl fuel r h
  refine crawlAux_depth1 U fetch baseUrl fuel [] [(baseUrl, 0)] [] [] [] r h ?_
    (by simp) (by simp)
  intro q hq
  simp only [List.mem_singleton] at hq
  subst hq
  exact Or.inl ⟨rfl, rfl⟩

/-- Witness for C5 on the two-page fixture site crawled at depth 1. -/
theorem depth_one_bound_witness :
    (∀ u ∈ ["b", "c"], u = "b" ∨ u ∈ directLinks tinyU tinyFetch "b")
    ∧ ∀ u ∈ ["c"], u ∈ directLinks tinyU tinyFetch "b" :=
  depth_one_bound tinyU tinyFetch "b" 10
    ⟨["c", "b"], [("p.pdf", anchor "p.pdf")], ["b", "c"], ["c"]⟩ (by decide)

/-! ## C1 — at most one fetch per URL, and termination -/

/-- The fetch log stays duplicate-free: a URL is only fetched when absent
from the visited set, and it enters the visited set in the same step, so
the log (always a subset of the visited set) never repeats. -/
theorem crawlAux_log_nodup (U : UrlLib) (fetch : String → Except String Fetched)
    (baseUrl : String) (maxDepth : Nat) :
    ∀ (fuel : Nat) (visited : List String) (queue : List (String × Nat))
      (pdfs : List (String × Node)) (log enq : List String) (r : CrawlResult),
      crawlAux U fetch baseUrl maxDepth fuel visited queue pdfs log enq = some r →
      log.Nodup → (∀ u ∈ log, u ∈ visited) → r.fetchLog.Nodup := by
  intro fuel
  induction fuel with
  | zero =>
    intro _ _ _ _ _ r h
    simp [crawlAux] at h
  | succ fuel ih =>
    intro visited queue pdfs log enq r h hnd hsub
    rcases queue with _ | ⟨⟨u, d⟩, rest⟩
    · simp only [crawlAux, Option.some.injEq] at h
      subst h
      exact hnd
    · simp only [crawlAux] at h
      by_cases hv : u ∈ visited
      · rw [if_pos hv] at h
        exact ih _ _ _ _ _ r h hnd hsub
      · rw [if_neg hv] at h
        have hnd' : (log ++ [u]).Nodup := by
          rw [List.nodup_append]
          refine ⟨hnd, by simp, ?_⟩
          intro a ha hb
          simp only [List.mem_singleton] at hb
          subst hb
          exact hv (hsub _ ha)
        have hsub' : ∀ x ∈ log ++ [u], x ∈ u :: visited := by
          intro x hx
          rcases List.mem_append.mp hx with hx | hx
          · exact List.mem_cons_of_mem _ (hsub x hx)
          · simp only [List.mem_singleton] at hx
            subst hx
            simp
        split at h
        · exact ih _ _ _ _ _ r h hnd' hsub'
        · rename_i pg hf
          by_cases hct : pyContains pg.contentType "text/html" = true
          · rw [if_pos hct] at h
            exact ih _ _ _ _ _ r h hnd' hsub'
          · rw [if_neg hct] at h
            exact ih _ _ _ _ _ r h hnd' hsub'

/-- `pushBound` bounds `linkCount` over the universe. -/
theorem pushBound_ge (fetch : String → Except String Fetched) :
    ∀ (univ : List String) (u : String), u ∈ univ →
      linkCount fetch u ≤ pushBound fetch univ := by
  intro univ
  induction univ with
  | nil =>
    intro u hu
    simp at hu
  | cons a univ ih =>
    intro u hu
    rw [pushBound, List.foldr_cons]
    rcases List.mem_cons.mp hu with rfl | hu
    · exact le_max_left _ _
    · exact le_trans (ih u hu) (le_max_right _ _)

/-- Filtering strictly shrinks a list that contains an element failing the
predicate. -/
theorem length_filter_lt {α : Type} (p : α → Bool) (l : List α) (u : α)
    (hu : u ∈ l) (hpu : p u = false) : (l.filter p).length < l.length := by
  induction l with
  | nil => simp at hu
  | cons a l ih =>
    rcases List.mem_cons.mp hu with rfl | hu
    · have := List.length_filter_le p l
      simp [List.filter_cons, hpu]
      omega
    · rw [List.filter_cons]
      by_cases hpa : p a
      · rw [if_pos hpa]
        have := ih hu
        simp only [List.length_cons]
        omega
      · rw [if_neg hpa]
        have := ih hu
        simp only [List.length_cons]
        omega

/-- Marking a fresh universe URL visited strictly shrinks the unvisited
part of the universe. -/
theorem unvisited_decrease (univ visited : List String) (u : String)
    (hu : u ∈ univ) (hv : u ∉ visited) :
    (univ.filter fun x => decide (x ∉ u :: visited)).length
      < (univ.filter fun x => decide (x ∉ visited)).length := by
  have hrw : (univ.filter fun x => decide (x ∉ u :: visited))
      = (univ.filter fun x => decide (x ∉ visited)).filter fun x => decide (x ≠ u) := by
    rw [List.filter_filter]
    apply List.filter_congr
    intro x _
    rw [decide_eq_decide.mpr (show (x ∉ u :: visited) ↔ (x ≠ u ∧ x ∉ visited) by
      simp only [List.mem_cons, not_or]), Bool.decide_and]
  rw [hrw]
  refine length_filter_lt _ _ u ?_ (by simp)
  rw [List.mem_filter]
  exact ⟨hu, by simpa using hv⟩

/-- Totality of the traversal loop: on any universe closed under the link
map and containing all frontier URLs, `crawlMeasure` many steps suffice. -/
theorem crawlAux_total (U : UrlLib) (fetch : String → Except String Fetched)
    (baseUrl : String) (maxDepth : Nat) (univ : List String)
    (hclosed : ∀ u ∈ univ, ∀ pg : Fetched, fetch u = .ok pg →
      ∀ hl ∈ findAllAnchorHrefs pg.html, U.urljoin pg.finalUrl hl.1 ∈ univ) :
    ∀ (fuel : Nat) (visited : List String) (queue : List (String × Nat))
      (pdfs : List (String × Node)) (log enq : List String),
      (∀ q ∈ queue, q.1 ∈ univ) →
      crawlMeasure fetch univ visited queue < fuel →
      (crawlAux U fetch baseUrl maxDepth fuel visited queue pdfs log enq).isSome := by
  intro fuel
  induction fuel with
  | zero =>
    intro _ _ _ _ _ _ hm
    omega
  | succ fuel ih =>
    intro visited queue pdfs log enq hquniv hm
    rcases queue with _ | ⟨⟨u, d⟩, rest⟩
    · simp [crawlAux]
    · simp only [crawlAux]
      by_cases hv : u ∈ visited
      · rw [if_pos hv]
        apply ih _ _ _ _ _ (fun q hq => hquniv q (List.mem_cons_of_mem _ hq))
        simp only [crawlMeasure, List.length_cons] at hm ⊢
        omega
      · rw [if_neg hv]
        have huu : u ∈ univ := hquniv (u, d) (by simp)
        have hAdec := unvisited_decrease univ visited u huu hv
        have hmul : (univ.filter fun x => decide (x ∉ u :: visited)).length
              * (pushBound fetch univ + 2) + (pushBound fetch univ + 2)
            ≤ (univ.filter fun x => decide (x ∉ visited)).length
              * (pushBound fetch univ + 2) := by
          have h1 := Nat.mul_le_mul_right (pushBound fetch univ + 2)
            (Nat.succ_le_of_lt hAdec)
          rwa [Nat.succ_mul] at h1
        split
        · apply ih _ _ _ _ _ (fun q hq => hquniv q (List.mem_cons_of_mem _ hq))
          simp only [crawlMeasure, List.length_cons] at hm ⊢
          omega
        · rename_i pg hf
          by_cases hct : pyContains pg.contentType "text/html" = true
          · rw [if_pos hct]
            have hfold := foldl_processLink_queue U baseUrl pg.finalUrl (u :: visited)
              d maxDepth (findAllAnchorHrefs pg.html) (pdfs, [])
            have hlc : (findAllAnchorHrefs pg.html).length = linkCount fetch u := by
              rw [linkCount, hf]
            have hst : ((findAllAnchorHrefs pg.html).foldl
                (processLink U baseUrl pg.finalUrl (u :: visited) d maxDepth)
                (pdfs, [])).2.length ≤ pushBound fetch univ := by
              have := hfold.2.1
              simp only [List.length_nil] at this
              rw [hlc] at this
              exact le_trans (by omega) (pushBound_ge fetch univ u huu)
            apply ih
            · intro q hq
              rcases List.mem_append.mp hq with hq | hq
              · exact hquniv q (List.mem_cons_of_mem _ hq)
              · rcases hfold.1 q hq with hin | ⟨-, l, hlmem, hurl⟩
                · simp at hin
                · rw [hurl]
                  exact hclosed u huu pg hf l hlmem
            · simp only [crawlMeasure, List.length_cons, List.length_append] at hm ⊢
              omega
          · rw [if_neg hct]
            apply ih _ _ _ _ _ (fun q hq => hquniv q (List.mem_cons_of_mem _ hq))
            simp only [crawlMeasure, List.length_cons] at hm ⊢
            omega

/-- **C1**: on any finite link graph — a finite URL universe containing the
seed and closed under resolved links of fetched pages — the traversal
terminates (some fuel returns a result), every returned run fetches each
distinct absolute URL at most once, and a link resolving to a URL already
in the visited set is never re-enqueued into the frontier. -/
theorem crawl_visits_once_and_terminates :
    ∀ (U : UrlLib) (fetch : String → Except String Fetched) (baseUrl : String)
      (maxDepth : Nat) (univ : List String),
      baseUrl ∈ univ →
      (∀ u ∈ univ, ∀ pg : Fetched, fetch u = .ok pg →
        ∀ hl ∈ findAllAnchorHrefs pg.html, U.urljoin pg.finalUrl hl.1 ∈ univ) →
      (∃ fuel r, crawl_for_pdfs U fetch baseUrl maxDepth fuel = some r)
      ∧ (∀ fuel r, crawl_for_pdfs U fetch baseUrl maxDepth fuel = some r →
          r.fetchLog.Nodup)
      ∧ ∀ (W : UrlLib) (b f : String) (vis : List String) (dep m : Nat)
          (st : List (String × Node) × List (String × Nat)) (hl : String × Node),
          W.urljoin f hl.1 ∈ vis →
          (processLink W b f vis dep m st hl).2 = st.2 := by
  intro U fetch baseUrl maxDepth univ hbase hclosed
  refine ⟨?_, ?_, ?_⟩
  · have h := crawlAux_total U fetch baseUrl maxDepth univ hclosed
      (crawlMeasure fetch univ [] [(baseUrl, 0)] + 1) [] [(baseUrl, 0)] [] [] []
      (by intro q hq; simp only [List.mem_singleton] at hq; subst hq; exact hbase)
      (by omega)
    obtain ⟨r, hr⟩ := Option.isSome_iff_exists.mp h
    exact ⟨_, r, hr⟩
  · intro fuel r h
    exact crawlAux_log_nodup U fetch baseUrl maxDepth fuel [] [(baseUrl, 0)] [] [] [] r h
      (by simp) (by simp)
  · intro W b f vis dep m st hl hmem
    simp only [processLink]
    repeat' split
    all_goals try rfl
    rename_i hcond
    exact absurd hmem hcond.2

/-- Witness for C1 on the one-URL universe of an always-failing fetcher. -/
theorem crawl_visits_once_and_terminates_witness :
    (∃ fuel r, crawl_for_pdfs tinyU failFetch "b" 3 fuel = some r)
    ∧ ∀ fuel r, crawl_for_pdfs tinyU failFetch "b" 3 fuel = some r →
        r.fetchLog.Nodup :=
  have h := crawl_visits_once_and_terminates tinyU failFetch "b" 3 ["b"] (by simp)
    (fun u hu pg hpg => absurd hpg (by simp [failFetch]))
  ⟨h.1, h.2.1⟩

end Atlas
